import Mathlib

/-!
Unity.h: typed overlays, address resolution and the obscured-scalar codec.

A shallow embedding of `src/Unity.h`.

* Memory is a byte-addressed map over the 64-bit address space; every address
  expression is reduced modulo `2 ^ 64` as `uint64_t` arithmetic is.
* `int` is a 32-bit two's-complement integer: a value is an `Int`, its
  representation is the `Nat` below `2 ^ 32` obtained with `toBits`.
* `float` is carried by its 32-bit pattern; the `intfloat` union is four bytes
  read either as an `int` or as a `float`.
* Struct members are placed by the LP64 rules of the arm64 target the header is
  written for (8-byte pointers, 4-byte `int`, natural alignment).
-/

namespace Unity

/-! ## Machine model -/

/-- Byte-addressed memory: address to byte. Only the residue of a cell modulo 256 is observed. -/
abbrev Mem := Nat → Nat

/-- Size of the address space, `2 ^ 64`. -/
abbrev ADDR : Nat := 18446744073709551616

/-- Number of 32-bit patterns, `2 ^ 32`. -/
abbrev W32 : Nat := 4294967296

/-- Load of one byte at a 64-bit address. -/
def load8 (m : Mem) (a : Nat) : Nat := m (a % ADDR) % 256

/-- Store of one byte at a 64-bit address. -/
def store8 (m : Mem) (a v : Nat) : Mem :=
  fun x => if x = a % ADDR then v % 256 else m x

/-- Little-endian load of the 4-byte word at address `a`. -/
def read32 (m : Mem) (a : Nat) : Nat :=
  load8 m a + 256 * load8 m (a + 1) + 65536 * load8 m (a + 2) + 16777216 * load8 m (a + 3)

/-- Little-endian store of the 4-byte word `v` at address `a`. -/
def write32 (m : Mem) (a v : Nat) : Mem :=
  store8 (store8 (store8 (store8 m a v) (a + 1) (v / 256)) (a + 2) (v / 65536)) (a + 3)
    (v / 16777216)

/-- Little-endian load of the 8-byte word (a pointer) at address `a`. -/
def read64 (m : Mem) (a : Nat) : Nat :=
  read32 m a + W32 * read32 m (a + 4)

/-- Value of a 32-bit pattern read as a two's-complement `int`. -/
def toInt32 (b : Nat) : Int :=
  if b % W32 < 2147483648 then ((b % W32 : Nat) : Int) else ((b % W32 : Nat) : Int) - 4294967296

/-- The 32-bit pattern of an `int`. -/
def toBits (v : Int) : Nat := (v % 4294967296).toNat

/-- Load through an `int *`. -/
def readInt (m : Mem) (a : Nat) : Int := toInt32 (read32 m a)

/-- Store through an `int *`. -/
def writeInt (m : Mem) (a : Nat) (v : Int) : Mem := write32 m a (toBits v)

/-- The C operator `^` on two `int` operands. -/
def xorInt (a b : Int) : Int := toInt32 (toBits a ^^^ toBits b)

/-- The C operator `*` on two `int` operands. A product outside the `int` range is
undefined in C++; it is given the two's-complement wrap-around of the 32-bit multiply. -/
def mulInt (a b : Int) : Int := toInt32 (toBits (a * b))

/-- A `float`, carried by its IEEE-754 single-precision bit pattern. -/
structure CFloat where
  bits : Nat
deriving DecidableEq, Repr

/-- Load through a `float *`. -/
def readFloat (m : Mem) (a : Nat) : CFloat := ⟨read32 m a⟩

/-- Store through a `float *`. -/
def writeFloat (m : Mem) (a : Nat) (v : CFloat) : Mem := write32 m a v.bits

/-- The local `union intfloat { int i; float f; }`: four bytes of storage. -/
structure intfloat where
  raw : Nat
deriving DecidableEq, Repr

/-- Read of member `i`. -/
def intfloat.i (u : intfloat) : Int := toInt32 u.raw

/-- Read of member `f`. -/
def intfloat.f (u : intfloat) : CFloat := ⟨u.raw % W32⟩

/-- Assignment to member `i`. -/
def intfloat.setI (v : Int) : intfloat := ⟨toBits v⟩

/-- Assignment to member `f`. -/
def intfloat.setF (v : CFloat) : intfloat := ⟨v.bits % W32⟩

/-! ## Obscured scalars (`src/Unity.h`, lines 271-337) -/

/-- Source function `GetObscuredIntValue`. -/
def GetObscuredIntValue (m : Mem) (location : Nat) : Int :=
  let cryptoKey := readInt m location
  let obfuscatedValue := readInt m ((location + 4) % ADDR)
  xorInt obfuscatedValue cryptoKey

/-- Source function `SetObscuredIntValue`. -/
def SetObscuredIntValue (m : Mem) (location : Nat) (value : Int) : Mem :=
  let cryptoKey := readInt m location
  writeInt m ((location + 4) % ADDR) (xorInt value cryptoKey)

/-- Source function `GetObscuredFloatValue`. -/
def GetObscuredFloatValue (m : Mem) (location : Nat) : CFloat :=
  let cryptoKey := readInt m location
  let obfuscatedValue := readInt m ((location + 4) % ADDR)
  let IF := intfloat.setI (xorInt obfuscatedValue cryptoKey)
  IF.f

/-- Source function `SetObscuredFloatValue`. -/
def SetObscuredFloatValue (m : Mem) (location : Nat) (value : CFloat) : Mem :=
  let cryptoKey := readInt m location
  let IF := intfloat.setF value
  let IF2 := intfloat.setI (xorInt IF.i cryptoKey)
  writeFloat m ((location + 4) % ADDR) IF2.f

/-- One call of the encode side of the codec on a fixed location. -/
inductive SetCall where
  | int (value : Int)
  | float (value : CFloat)
deriving DecidableEq, Repr

/-- A finite sequence of `SetObscuredIntValue` / `SetObscuredFloatValue` calls on `location`. -/
def runSetCalls (m : Mem) (location : Nat) : List SetCall → Mem
  | [] => m
  | SetCall.int v :: cs => runSetCalls (SetObscuredIntValue m location v) location cs
  | SetCall.float v :: cs => runSetCalls (SetObscuredFloatValue m location v) location cs

/-! ## Address resolution (`src/Unity.h`, lines 3-7) -/

/-- The host loader as `getRealOffset` can see it: the function
`_dyld_get_image_vmaddr_slide`, given by the address its code is loaded at and by the
slide it reports for each image index. -/
structure Dyld where
  slideFnAddr : Nat
  slide : Nat → Int

/-- The macro `ASLR_BIAS`. It expands to the name `_dyld_get_image_vmaddr_slide` alone,
with no argument list, so the expression designates the function and not a value it
returns. -/
def ASLR_BIAS (h : Dyld) : Nat := h.slideFnAddr

/-- Source function `getRealOffset`: `ASLR_BIAS + offset`, as `uint64_t`. -/
def getRealOffset (h : Dyld) (offset : Nat) : Nat := (ASLR_BIAS h + offset) % ADDR

/-! ## Struct layout -/

/-- First multiple of `al` that is not below `off`. -/
def alignUp (off al : Nat) : Nat := (off + al - 1) / al * al

/-- Offsets of struct members given in declaration order as (size, alignment). -/
def memberOffsets : Nat → List (Nat × Nat) → List Nat
  | _, [] => []
  | off, (sz, al) :: rest => alignUp off al :: memberOffsets (alignUp off al + sz) rest

/-- Members of `monoArray`: `klass`, `monitor`, `bounds`, `max_length`, `vector`. -/
def monoArrayMembers : List (Nat × Nat) := [(8, 8), (8, 8), (8, 8), (4, 4), (8, 8)]

/-- Members of `_monoString`: `klass`, `monitor`, `length`, `chars`. -/
def monoStringMembers : List (Nat × Nat) := [(8, 8), (8, 8), (4, 4), (1, 1)]

/-- Members of `monoList`: `unk0`, `unk1`, `items`, `size`, `version`. -/
def monoListMembers : List (Nat × Nat) := [(8, 8), (8, 8), (8, 8), (4, 4), (4, 4)]

/-- Members of `monoDictionary`: `unk0`, `unk1`, `table`, `linkSlots`, `keys`, `values`,
`touchedSlots`, `emptySlot`, `size`. -/
def monoDictionaryMembers : List (Nat × Nat) :=
  [(8, 8), (8, 8), (8, 8), (8, 8), (8, 8), (8, 8), (4, 4), (4, 4), (4, 4)]

/-! ## `monoArray` (`src/Unity.h`, lines 18-34) -/

/-- Offset of member `max_length`. -/
def monoArray.max_length_off : Nat := 24

/-- Offset of member `vector`, the inline storage. -/
def monoArray.vector_off : Nat := 32

/-- End of the fixed prefix `klass`, `monitor`, `bounds`, `max_length`. -/
def monoArray.headEnd : Nat := 28

/-- Source method `monoArray::getLength`. -/
def monoArray.getLength (m : Mem) (self : Nat) : Int :=
  readInt m (self + monoArray.max_length_off)

/-- Source method `monoArray::getPointer`: the address of member `vector`. -/
def monoArray.getPointer (self : Nat) : Nat := (self + monoArray.vector_off) % ADDR

/-- Element `i` read through an `int *` obtained from `getPointer`. -/
def intAt (m : Mem) (p i : Nat) : Int := readInt m (p + 4 * i)

/-- The first `n` elements read through an `int *`. -/
def readInts (m : Mem) (p n : Nat) : List Int := (List.range n).map (intAt m p)

/-- Consecutive 32-bit integers stored from address `p` on. -/
def writeInts (m : Mem) (p : Nat) : List Int → Mem
  | [] => m
  | x :: xs => writeInts (writeInt m p x) (p + 4) xs

/-! ## `monoString` (`src/Unity.h`, lines 54-84) -/

/-- Host text (`NSString`): a sequence of UTF-16 code units. -/
abbrev NSString := List Nat

/-- The conversion `(NSUInteger)` of an `int`: reduction modulo `2 ^ 64`. -/
def toNSUInteger (v : Int) : Nat := (v % 18446744073709551616).toNat

/-- The little-endian code unit number `i` of the bytes at `p`. -/
def codeUnitAt (m : Mem) (p i : Nat) : Nat := load8 m (p + 2 * i) + 256 * load8 m (p + 2 * i + 1)

/-- Host call `initWithBytes:length:encoding:` with `NSUTF16LittleEndianStringEncoding`:
the `len` bytes at `bytes` taken two by two as little-endian code units. -/
def initWithBytesUTF16LE (m : Mem) (bytes len : Nat) : NSString :=
  (List.range (len / 2)).map (codeUnitAt m bytes)

/-- UTF-8 bytes of one Unicode scalar value. -/
def utf8Encode (cp : Nat) : List Nat :=
  if cp < 128 then [cp]
  else if cp < 2048 then [192 + cp / 64, 128 + cp % 64]
  else if cp < 65536 then [224 + cp / 4096, 128 + cp / 64 % 64, 128 + cp % 64]
  else [240 + cp / 262144, 128 + cp / 4096 % 64, 128 + cp / 64 % 64, 128 + cp % 64]

/-- Host call `UTF8String` without its terminator: the UTF-8 bytes of the text, surrogate
pairs combined; `none` (a NULL result) when a surrogate is unpaired. -/
def utf8Bytes : NSString → Option (List Nat)
  | [] => some []
  | u :: rest =>
    if 55296 ≤ u ∧ u < 56320 then
      match rest with
      | [] => none
      | l :: rest2 =>
        if 56320 ≤ l ∧ l < 57344 then
          (utf8Bytes rest2).map
            (fun bs => utf8Encode (65536 + (u - 55296) * 1024 + (l - 56320)) ++ bs)
        else none
    else if 56320 ≤ u ∧ u < 57344 then none
    else (utf8Bytes rest).map (fun bs => utf8Encode u ++ bs)

/-- Host call `UTF8String`: the buffer the returned `char *` points at, NUL-terminated. -/
def UTF8String (s : NSString) : Option (List Nat) := (utf8Bytes s).map (fun bs => bs ++ [0])

/-- The text a `char *` denotes: the bytes before the first NUL. This is what
`std::string(const char *)` copies. -/
def cText (buf : List Nat) : List Nat := buf.takeWhile (fun b => b ≠ 0)

/-- Offset of member `length`. -/
def monoString.length_off : Nat := 16

/-- Offset of member `chars`. -/
def monoString.chars_off : Nat := 20

/-- Source method `_monoString::getLength`. -/
def monoString.getLength (m : Mem) (self : Nat) : Int :=
  readInt m (self + monoString.length_off)

/-- Source method `_monoString::getChars`. -/
def monoString.getChars (self : Nat) : Nat := (self + monoString.chars_off) % ADDR

/-- The byte count `(NSUInteger)(length * 2)` handed to the host. -/
def monoString.byteCount (m : Mem) (self : Nat) : Nat :=
  toNSUInteger (mulInt (monoString.getLength m self) 2)

/-- Source method `_monoString::toNSString`. -/
def monoString.toNSString (m : Mem) (self : Nat) : NSString :=
  initWithBytesUTF16LE m (monoString.getChars self) (monoString.byteCount m self)

/-- Source method `_monoString::toCString`: the buffer behind the returned `char *`. -/
def monoString.toCString (m : Mem) (self : Nat) : Option (List Nat) :=
  let v1 := monoString.toNSString m self
  UTF8String v1

/-- Source method `_monoString::toCPPString`: the bytes of the returned `std::string`. -/
def monoString.toCPPString (m : Mem) (self : Nat) : Option (List Nat) :=
  (monoString.toCString m self).map cText

/-! ## `monoList` (`src/Unity.h`, lines 110-129) -/

/-- Member `items` (offset 16), a pointer to the backing `monoArray`. -/
def monoList.items (m : Mem) (self : Nat) : Nat := read64 m (self + 16)

/-- Source method `monoList::getItems`. -/
def monoList.getItems (m : Mem) (self : Nat) : Nat :=
  monoArray.getPointer (monoList.items m self)

/-- Source method `monoList::getSize`: member `size` (offset 24). -/
def monoList.getSize (m : Mem) (self : Nat) : Int := readInt m (self + 24)

/-- Source method `monoList::getVersion`: member `version` (offset 28). -/
def monoList.getVersion (m : Mem) (self : Nat) : Int := readInt m (self + 28)

/-! ## `monoDictionary` (`src/Unity.h`, lines 153-184) -/

/-- Member `keys` (offset 32), a pointer to the keys `monoArray`. -/
def monoDictionary.keys (m : Mem) (self : Nat) : Nat := read64 m (self + 32)

/-- Member `values` (offset 40), a pointer to the values `monoArray`. -/
def monoDictionary.values (m : Mem) (self : Nat) : Nat := read64 m (self + 40)

/-- Source method `monoDictionary::getKeys`. -/
def monoDictionary.getKeys (m : Mem) (self : Nat) : Nat :=
  monoArray.getPointer (monoDictionary.keys m self)

/-- Source method `monoDictionary::getValues`. -/
def monoDictionary.getValues (m : Mem) (self : Nat) : Nat :=
  monoArray.getPointer (monoDictionary.values m self)

/-- Source method `monoDictionary::getNumKeys`. -/
def monoDictionary.getNumKeys (m : Mem) (self : Nat) : Int :=
  monoArray.getLength m (monoDictionary.keys m self)

/-- Source method `monoDictionary::getNumValues`. -/
def monoDictionary.getNumValues (m : Mem) (self : Nat) : Int :=
  monoArray.getLength m (monoDictionary.values m self)

/-- Source method `monoDictionary::getSize`: member `size` (offset 56). -/
def monoDictionary.getSize (m : Mem) (self : Nat) : Int := readInt m (self + 56)

/-! ## Concrete memories used by the examples -/

/-- Memory holding the listed bytes from address `base` on and zero elsewhere. -/
def memOfBytes (base : Nat) (bs : List Nat) : Mem :=
  fun a => if base ≤ a then bs.getD (a - base) 0 else 0

/-- A string header at address 0 with `length = 3` and the code units of "cat". -/
def catMem : Mem :=
  memOfBytes 0 [0, 0, 0, 0, 0, 0, 0, 0, 0, 0, 0, 0, 0, 0, 0, 0, 3, 0, 0, 0,
    99, 0, 97, 0, 116, 0]

/-- A string header at address 0 with `length = 4` and the code units `a`, 0, `b`, `c`. -/
def zeroUnitMem : Mem :=
  memOfBytes 0 [0, 0, 0, 0, 0, 0, 0, 0, 0, 0, 0, 0, 0, 0, 0, 0, 4, 0, 0, 0,
    97, 0, 0, 0, 98, 0, 99, 0]

/-- A string header at address 0 with `length = 0x40000000`. -/
def hugeLengthMem : Mem :=
  memOfBytes 0 [0, 0, 0, 0, 0, 0, 0, 0, 0, 0, 0, 0, 0, 0, 0, 0, 0, 0, 0, 64]

/-- An array header at address 0 with `max_length = 5` and zeroed inline storage. -/
def fiveArrayMem : Mem :=
  memOfBytes 0 [0, 0, 0, 0, 0, 0, 0, 0, 0, 0, 0, 0, 0, 0, 0, 0, 0, 0, 0, 0, 0, 0, 0, 0,
    5, 0, 0, 0]

/-- A list header at address 0 (`items = 64`, `size = 4`, `version = 7`) whose backing
array at address 64 has `max_length = 10` and holds 1 to 10. -/
def listMem : Mem :=
  memOfBytes 0 (List.replicate 16 0 ++ [64, 0, 0, 0, 0, 0, 0, 0, 4, 0, 0, 0, 7, 0, 0, 0]
    ++ List.replicate 32 0
    ++ List.replicate 24 0 ++ [10, 0, 0, 0, 0, 0, 0, 0]
    ++ [1, 0, 0, 0, 2, 0, 0, 0, 3, 0, 0, 0, 4, 0, 0, 0, 5, 0, 0, 0,
        6, 0, 0, 0, 7, 0, 0, 0, 8, 0, 0, 0, 9, 0, 0, 0, 10, 0, 0, 0])

/-- A dictionary header at address 0 (`keys = 64`, `values = 128`, `touchedSlots = 3`,
`emptySlot = -1`, `size = 2`). The keys array at 64 has `max_length = 8` and holds 11 to 18;
the values array at 128 has `max_length = 8` and holds 21 to 28. -/
def dictMem : Mem :=
  memOfBytes 0 (List.replicate 32 0
    ++ [64, 0, 0, 0, 0, 0, 0, 0, 128, 0, 0, 0, 0, 0, 0, 0]
    ++ [3, 0, 0, 0, 255, 255, 255, 255, 2, 0, 0, 0, 0, 0, 0, 0]
    ++ List.replicate 24 0 ++ [8, 0, 0, 0, 0, 0, 0, 0]
    ++ [11, 0, 0, 0, 12, 0, 0, 0, 13, 0, 0, 0, 14, 0, 0, 0,
        15, 0, 0, 0, 16, 0, 0, 0, 17, 0, 0, 0, 18, 0, 0, 0]
    ++ List.replicate 24 0 ++ [8, 0, 0, 0, 0, 0, 0, 0]
    ++ [21, 0, 0, 0, 22, 0, 0, 0, 23, 0, 0, 0, 24, 0, 0, 0,
        25, 0, 0, 0, 26, 0, 0, 0, 27, 0, 0, 0, 28, 0, 0, 0])

/-! ## Machine-model lemmas -/

theorem load8_lt (m : Mem) (a : Nat) : load8 m a < 256 := by
  unfold load8; omega

theorem read32_lt (m : Mem) (a : Nat) : read32 m a < W32 := by
  have h0 := load8_lt m a
  have h1 := load8_lt m (a + 1)
  have h2 := load8_lt m (a + 2)
  have h3 := load8_lt m (a + 3)
  unfold read32; simp only [W32]; omega

theorem load8_store8_same (m : Mem) (a b v : Nat) (h : b % ADDR = a % ADDR) :
    load8 (store8 m a v) b = v % 256 := by
  unfold load8 store8; simp [h]

theorem load8_store8_other (m : Mem) (a b v : Nat) (h : b % ADDR ≠ a % ADDR) :
    load8 (store8 m a v) b = load8 m b := by
  unfold load8 store8; simp [h]

theorem load8_write32_other (m : Mem) (a b v : Nat)
    (h0 : b % ADDR ≠ a % ADDR) (h1 : b % ADDR ≠ (a + 1) % ADDR)
    (h2 : b % ADDR ≠ (a + 2) % ADDR) (h3 : b % ADDR ≠ (a + 3) % ADDR) :
    load8 (write32 m a v) b = load8 m b := by
  unfold write32
  rw [load8_store8_other _ _ _ _ h3, load8_store8_other _ _ _ _ h2,
    load8_store8_other _ _ _ _ h1, load8_store8_other _ _ _ _ h0]

theorem read32_write32_same (m : Mem) (a v : Nat) :
    read32 (write32 m a v) a = v % W32 := by
  have e0 : load8 (write32 m a v) a = v % 256 := by
    unfold write32
    rw [load8_store8_other _ _ _ _ (by simp only [ADDR]; omega), load8_store8_other _ _ _ _ (by simp only [ADDR]; omega),
      load8_store8_other _ _ _ _ (by simp only [ADDR]; omega), load8_store8_same _ _ _ _ rfl]
  have e1 : load8 (write32 m a v) (a + 1) = v / 256 % 256 := by
    unfold write32
    rw [load8_store8_other _ _ _ _ (by simp only [ADDR]; omega), load8_store8_other _ _ _ _ (by simp only [ADDR]; omega),
      load8_store8_same _ _ _ _ rfl]
  have e2 : load8 (write32 m a v) (a + 2) = v / 65536 % 256 := by
    unfold write32
    rw [load8_store8_other _ _ _ _ (by simp only [ADDR]; omega), load8_store8_same _ _ _ _ rfl]
  have e3 : load8 (write32 m a v) (a + 3) = v / 16777216 % 256 := by
    unfold write32
    rw [load8_store8_same _ _ _ _ rfl]
  unfold read32
  rw [e0, e1, e2, e3]
  simp only [W32]; omega

theorem layout_monoArray : memberOffsets 0 monoArrayMembers = [0, 8, 16, 24, 32] := by decide

theorem layout_monoString : memberOffsets 0 monoStringMembers = [0, 8, 16, 20] := by decide

theorem layout_monoList : memberOffsets 0 monoListMembers = [0, 8, 16, 24, 28] := by decide

theorem layout_monoDictionary :
    memberOffsets 0 monoDictionaryMembers = [0, 8, 16, 24, 32, 40, 48, 52, 56] := by decide


theorem toBits_lt (v : Int) : toBits v < W32 := by
  unfold toBits; simp only [W32]; omega

theorem toBits_toInt32 (b : Nat) : toBits (toInt32 b) = b % W32 := by
  unfold toBits toInt32; simp only [W32]
  split <;> omega

theorem toInt32_toBits (v : Int) (h1 : -2147483648 ≤ v) (h2 : v < 2147483648) :
    toInt32 (toBits v) = v := by
  unfold toBits toInt32; simp only [W32]
  split <;> omega

theorem toInt32_range (b : Nat) : -2147483648 ≤ toInt32 b ∧ toInt32 b < 2147483648 := by
  unfold toInt32; simp only [W32]
  split <;> omega

theorem xor_lt_W32 (a b : Nat) (ha : a < W32) (hb : b < W32) : a ^^^ b < W32 := by
  have h := @Nat.xor_lt_two_pow a b 32 (by simpa [W32] using ha) (by simpa [W32] using hb)
  simpa [W32] using h

theorem toBits_xorInt (a b : Int) : toBits (xorInt a b) = toBits a ^^^ toBits b := by
  unfold xorInt
  rw [toBits_toInt32, Nat.mod_eq_of_lt (xor_lt_W32 _ _ (toBits_lt a) (toBits_lt b))]

theorem xorInt_cancel (v k : Int) (h1 : -2147483648 ≤ v) (h2 : v < 2147483648) :
    xorInt (xorInt v k) k = v := by
  have h : toBits (xorInt v k) ^^^ toBits k = toBits v := by
    rw [toBits_xorInt, Nat.xor_assoc, Nat.xor_self, Nat.xor_zero]
  unfold xorInt at h ⊢
  rw [h, toInt32_toBits v h1 h2]

/-- Bytes outside the payload word are untouched by a store to the payload. -/
theorem read32_write32_key (m : Mem) (loc v : Nat) :
    read32 (write32 m ((loc + 4) % ADDR) v) loc = read32 m loc := by
  unfold read32
  rw [load8_write32_other, load8_write32_other, load8_write32_other, load8_write32_other]
  all_goals (simp only [ADDR]; omega)


theorem load8_write32_payload_frame (m : Mem) (loc v a : Nat)
    (h : ∀ j, j < 4 → a % ADDR ≠ (loc + 4 + j) % ADDR) :
    load8 (write32 m ((loc + 4) % ADDR) v) a = load8 m a := by
  have h0 := h 0 (by omega)
  have h1 := h 1 (by omega)
  have h2 := h 2 (by omega)
  have h3 := h 3 (by omega)
  apply load8_write32_other
  all_goals (simp only [ADDR] at *; omega)

theorem load8_SetCall_frame (m : Mem) (loc a : Nat) (c : SetCall)
    (h : ∀ j, j < 4 → a % ADDR ≠ (loc + 4 + j) % ADDR) :
    load8 (runSetCalls m loc [c]) a = load8 m a := by
  cases c with
  | int v => exact load8_write32_payload_frame m loc _ a h
  | float v => exact load8_write32_payload_frame m loc _ a h

theorem runSetCalls_cons (m : Mem) (loc : Nat) (c : SetCall) (cs : List SetCall) :
    runSetCalls m loc (c :: cs) = runSetCalls (runSetCalls m loc [c]) loc cs := by
  cases c <;> rfl

theorem load8_runSetCalls_frame (loc a : Nat)
    (h : ∀ j, j < 4 → a % ADDR ≠ (loc + 4 + j) % ADDR) (cs : List SetCall) :
    ∀ m : Mem, load8 (runSetCalls m loc cs) a = load8 m a := by
  induction cs with
  | nil => intro m; rfl
  | cons c cs ih =>
    intro m
    rw [runSetCalls_cons, ih, load8_SetCall_frame m loc a c h]

/-! ## Host text lemmas -/

theorem length_initWithBytesUTF16LE (m : Mem) (p len : Nat) :
    (initWithBytesUTF16LE m p len).length = len / 2 := by
  unfold initWithBytesUTF16LE
  rw [List.length_map, List.length_range]

theorem utf8Encode_ne_zero (cp : Nat) (h : cp ≠ 0) : ∀ b ∈ utf8Encode cp, b ≠ 0 := by
  intro b hb
  unfold utf8Encode at hb
  split at hb
  · simp only [List.mem_singleton] at hb; omega
  · split at hb
    · simp only [List.mem_cons, List.mem_singleton, List.not_mem_nil, or_false] at hb; omega
    · split at hb
      · simp only [List.mem_cons, List.mem_singleton, List.not_mem_nil, or_false] at hb; omega
      · simp only [List.mem_cons, List.mem_singleton, List.not_mem_nil, or_false] at hb; omega

theorem cText_append_of_ne_zero (xs ys : List Nat) (h : ∀ b ∈ xs, b ≠ 0) :
    cText (xs ++ ys) = xs ++ cText ys := by
  unfold cText
  exact List.takeWhile_append_of_pos (by intro a ha; simpa using h a ha)

theorem cText_utf8Encode_zero (ys : List Nat) : cText (utf8Encode 0 ++ ys) = [] := by
  simp [cText, utf8Encode]

theorem cText_terminated (bs : List Nat) : cText (bs ++ [0]) = cText bs := by
  induction bs with
  | nil => simp [cText]
  | cons b bs ih =>
    unfold cText at ih ⊢
    by_cases hb : b = 0
    · simp [hb]
    · simpa [hb] using ih

/-- The UTF-8 bytes before the first NUL are the UTF-8 bytes of the code units before
the first zero code unit. -/
theorem utf8Bytes_cText (n : Nat) :
    ∀ (us : NSString) (bs : List Nat), us.length ≤ n → utf8Bytes us = some bs →
      utf8Bytes (cText us) = some (cText bs) := by
  induction n with
  | zero =>
    intro us bs hlen h
    have : us = [] := List.length_eq_zero.mp (by omega)
    subst this
    simp only [utf8Bytes, Option.some.injEq] at h
    subst h
    simp [cText, utf8Bytes]
  | succ n ih =>
    intro us bs hlen h
    match us, h, hlen with
    | [], h, _ =>
      simp only [utf8Bytes, Option.some.injEq] at h
      subst h
      simp [cText, utf8Bytes]
    | u :: rest, h, hlen =>
      unfold utf8Bytes at h
      by_cases hhi : 55296 ≤ u ∧ u < 56320
      · rw [if_pos hhi] at h
        match rest, h, hlen with
        | [], h, _ => simp at h
        | l :: rest2, h, hlen =>
          dsimp only at h
          by_cases hlo : 56320 ≤ l ∧ l < 57344
          · rw [if_pos hlo] at h
            cases hr : utf8Bytes rest2 with
            | none => rw [hr] at h; simp at h
            | some bs2 =>
              rw [hr] at h
              simp only [Option.map, Option.some.injEq] at h
              subst h
              have hrec := ih rest2 bs2 (by simp only [List.length_cons] at hlen; omega) hr
              have hu : u ≠ 0 := by omega
              have hl : l ≠ 0 := by omega
              have e1 : cText (u :: l :: rest2) = u :: l :: cText rest2 := by
                simp [cText, hu, hl]
              rw [e1, cText_append_of_ne_zero _ _ (utf8Encode_ne_zero _ (by omega))]
              unfold utf8Bytes
              rw [if_pos hhi]
              dsimp only
              rw [if_pos hlo, hrec]
              rfl
          · rw [if_neg hlo] at h
            simp at h
      · rw [if_neg hhi] at h
        by_cases hlo : 56320 ≤ u ∧ u < 57344
        · rw [if_pos hlo] at h
          simp at h
        · rw [if_neg hlo] at h
          cases hr : utf8Bytes rest with
          | none => rw [hr] at h; simp at h
          | some bs1 =>
            rw [hr] at h
            simp only [Option.map, Option.some.injEq] at h
            subst h
            have hrec := ih rest bs1 (by simp only [List.length_cons] at hlen; omega) hr
            by_cases hu : u = 0
            · subst hu
              rw [cText_utf8Encode_zero]
              simp [cText, utf8Bytes]
            · have e1 : cText (u :: rest) = u :: cText rest := by
                simp [cText, hu]
              rw [e1, cText_append_of_ne_zero _ _ (utf8Encode_ne_zero _ hu)]
              unfold utf8Bytes
              rw [if_neg hhi, if_neg hlo, hrec]
              rfl


/-- A zero code unit becomes a NUL byte. -/
theorem utf8Bytes_zero_mem (n : Nat) :
    ∀ (us : NSString) (bs : List Nat), us.length ≤ n → utf8Bytes us = some bs →
      0 ∈ us → 0 ∈ bs := by
  induction n with
  | zero =>
    intro us bs hlen _ hz
    have : us = [] := List.length_eq_zero.mp (by omega)
    subst this
    simp at hz
  | succ n ih =>
    intro us bs hlen h hz
    match us, h, hlen, hz with
    | [], _, _, hz => simp at hz
    | u :: rest, h, hlen, hz =>
      unfold utf8Bytes at h
      by_cases hhi : 55296 ≤ u ∧ u < 56320
      · rw [if_pos hhi] at h
        match rest, h, hlen, hz with
        | [], h, _, _ => simp at h
        | l :: rest2, h, hlen, hz =>
          dsimp only at h
          by_cases hlo : 56320 ≤ l ∧ l < 57344
          · rw [if_pos hlo] at h
            cases hr : utf8Bytes rest2 with
            | none => rw [hr] at h; simp at h
            | some bs2 =>
              rw [hr] at h
              simp only [Option.map, Option.some.injEq] at h
              subst h
              have hz2 : 0 ∈ rest2 := by
                simp only [List.mem_cons] at hz
                rcases hz with h1 | h1 | h1
                · omega
                · omega
                · exact h1
              exact List.mem_append_right _
                (ih rest2 bs2 (by simp only [List.length_cons] at hlen; omega) hr hz2)
          · rw [if_neg hlo] at h
            simp at h
      · rw [if_neg hhi] at h
        by_cases hlo : 56320 ≤ u ∧ u < 57344
        · rw [if_pos hlo] at h
          simp at h
        · rw [if_neg hlo] at h
          cases hr : utf8Bytes rest with
          | none => rw [hr] at h; simp at h
          | some bs1 =>
            rw [hr] at h
            simp only [Option.map, Option.some.injEq] at h
            subst h
            by_cases hu : u = 0
            · subst hu
              exact List.mem_append_left _ (by simp [utf8Encode])
            · have hz2 : 0 ∈ rest := by
                simp only [List.mem_cons] at hz
                rcases hz with h1 | h1
                · omega
                · exact h1
              exact List.mem_append_right _
                (ih rest bs1 (by simp only [List.length_cons] at hlen; omega) hr hz2)

theorem byteCount_of_length (m : Mem) (self n : Nat)
    (hn : monoString.getLength m self = (n : Int)) (hbound : n < 1073741824) :
    monoString.byteCount m self = 2 * n := by
  unfold monoString.byteCount mulInt
  rw [hn, toInt32_toBits _ (by omega) (by omega)]
  unfold toNSUInteger
  omega

theorem read32_write32_disjoint (m : Mem) (a b v : Nat)
    (h : ∀ i j, i < 4 → j < 4 → (b + i) % ADDR ≠ (a + j) % ADDR) :
    read32 (write32 m a v) b = read32 m b := by
  have h00 := h 0 0 (by omega) (by omega)
  have h01 := h 0 1 (by omega) (by omega)
  have h02 := h 0 2 (by omega) (by omega)
  have h03 := h 0 3 (by omega) (by omega)
  have h10 := h 1 0 (by omega) (by omega)
  have h11 := h 1 1 (by omega) (by omega)
  have h12 := h 1 2 (by omega) (by omega)
  have h13 := h 1 3 (by omega) (by omega)
  have h20 := h 2 0 (by omega) (by omega)
  have h21 := h 2 1 (by omega) (by omega)
  have h22 := h 2 2 (by omega) (by omega)
  have h23 := h 2 3 (by omega) (by omega)
  have h30 := h 3 0 (by omega) (by omega)
  have h31 := h 3 1 (by omega) (by omega)
  have h32 := h 3 2 (by omega) (by omega)
  have h33 := h 3 3 (by omega) (by omega)
  simp only [Nat.add_zero] at h00 h01 h02 h03 h10 h20 h30
  unfold read32
  rw [load8_write32_other m a b v h00 h01 h02 h03,
    load8_write32_other m a (b + 1) v h10 h11 h12 h13,
    load8_write32_other m a (b + 2) v h20 h21 h22 h23,
    load8_write32_other m a (b + 3) v h30 h31 h32 h33]

theorem read32_writeInts_before (xs : List Int) :
    ∀ (m : Mem) (p b : Nat), p + 4 * xs.length ≤ ADDR → b + 4 ≤ p →
      read32 (writeInts m p xs) b = read32 m b := by
  induction xs with
  | nil => intro m p b _ _; rfl
  | cons x xs ih =>
    intro m p b hfit hb
    simp only [List.length_cons] at hfit
    unfold writeInts
    rw [ih (writeInt m p x) (p + 4) b (by omega) (by omega)]
    unfold writeInt
    apply read32_write32_disjoint
    intro i j hi hj
    simp only [ADDR] at *
    omega

theorem readInts_succ (m : Mem) (p n : Nat) :
    readInts m p (n + 1) = readInt m p :: readInts m (p + 4) n := by
  unfold readInts
  rw [List.range_succ_eq_map, List.map_cons, List.map_map]
  congr 1
  apply List.map_congr_left
  intro i _
  unfold intAt
  simp only [Function.comp]
  congr 1
  omega

theorem readInts_writeInts (xs : List Int) :
    ∀ (m : Mem) (p : Nat), p + 4 * xs.length ≤ ADDR →
      (∀ x ∈ xs, -2147483648 ≤ x ∧ x < 2147483648) →
      readInts (writeInts m p xs) p xs.length = xs := by
  induction xs with
  | nil => intro m p _ _; rfl
  | cons x xs ih =>
    intro m p hfit hr
    simp only [List.length_cons] at hfit ⊢
    rw [readInts_succ]
    unfold writeInts
    have hx := hr x (List.mem_cons_self x xs)
    rw [ih (writeInt m p x) (p + 4) (by omega)
      (fun y hy => hr y (List.mem_cons_of_mem x hy))]
    unfold readInt
    rw [read32_writeInts_before xs (writeInt m p x) (p + 4) p (by omega) (by omega)]
    unfold writeInt
    rw [read32_write32_same, Nat.mod_eq_of_lt (toBits_lt x), toInt32_toBits x hx.1 hx.2]

/-! ## Claims -/

/-- C1: integer codec round trip. For every key `k`, every 32-bit integer `v` and every
memory whose word at `location` is `k`, `SetObscuredIntValue(location, v)` followed by
`GetObscuredIntValue(location)` returns exactly `v`; the payload written is `v ^ k`. -/
theorem C1_int_codec_round_trip (m : Mem) (location : Nat) (k v : Int)
    (hk : readInt m location = k)
    (hlo : -2147483648 ≤ v) (hhi : v < 2147483648) :
    GetObscuredIntValue (SetObscuredIntValue m location v) location = v ∧
    readInt (SetObscuredIntValue m location v) ((location + 4) % ADDR) = xorInt v k := by
  have hpay : readInt (SetObscuredIntValue m location v) ((location + 4) % ADDR)
      = xorInt v k := by
    unfold SetObscuredIntValue readInt writeInt
    simp only []
    rw [read32_write32_same, Nat.mod_eq_of_lt (toBits_lt _)]
    have hr := toInt32_range (toBits v ^^^ toBits (toInt32 (read32 m location)))
    rw [← hk]
    unfold readInt
    exact toInt32_toBits _ hr.1 hr.2
  have hkey : readInt (SetObscuredIntValue m location v) location = k := by
    rw [← hk]
    unfold SetObscuredIntValue readInt writeInt
    simp only []
    rw [read32_write32_key]
  refine ⟨?_, hpay⟩
  unfold GetObscuredIntValue
  simp only []
  rw [hpay, hkey]
  exact xorInt_cancel v k hlo hhi


/-- C2: float codec round trip, bit for bit. For every key `k` and every 32-bit pattern
`b` (the patterns of -0.0 and of every NaN included), in a memory whose word at `location`
is `k`, `SetObscuredFloatValue(location, float with bits b)` followed by
`GetObscuredFloatValue(location)` returns a float whose bit pattern is `b`; the payload
written is the pattern of `b ^ k`. -/
theorem C2_float_codec_round_trip (m : Mem) (location : Nat) (k : Int) (b : Nat)
    (hk : readInt m location = k) (hb : b < 4294967296) :
    (GetObscuredFloatValue (SetObscuredFloatValue m location ⟨b⟩) location).bits = b ∧
    read32 (SetObscuredFloatValue m location ⟨b⟩) ((location + 4) % ADDR)
      = b ^^^ toBits k := by
  have hbW : b % W32 = b := Nat.mod_eq_of_lt hb
  have hpay : read32 (SetObscuredFloatValue m location ⟨b⟩) ((location + 4) % ADDR)
      = b ^^^ toBits k := by
    unfold SetObscuredFloatValue writeFloat intfloat.f intfloat.setI intfloat.i intfloat.setF
    simp only []
    rw [read32_write32_same, Nat.mod_mod, Nat.mod_eq_of_lt (toBits_lt _), toBits_xorInt,
      toBits_toInt32, Nat.mod_mod, hbW, hk]
  have hkey : readInt (SetObscuredFloatValue m location ⟨b⟩) location = k := by
    rw [← hk]
    unfold SetObscuredFloatValue readInt writeFloat
    simp only []
    rw [read32_write32_key]
  refine ⟨?_, hpay⟩
  unfold GetObscuredFloatValue intfloat.f intfloat.setI
  simp only []
  rw [Nat.mod_eq_of_lt (toBits_lt _), toBits_xorInt, hkey]
  unfold readInt
  rw [hpay, toBits_toInt32,
    Nat.mod_eq_of_lt (xor_lt_W32 _ _ hb (toBits_lt k)),
    Nat.xor_assoc, Nat.xor_self, Nat.xor_zero]

/-- C3: encode never alters the stored key. After any finite sequence of
`SetObscuredIntValue` / `SetObscuredFloatValue` calls on `location`, with arbitrary values,
the key word at `location` is what it was before, and so is every byte outside the four
payload bytes at `location + 4`. -/
theorem C3_encode_keeps_key (m : Mem) (location : Nat) (calls : List SetCall) :
    read32 (runSetCalls m location calls) location = read32 m location ∧
    readInt (runSetCalls m location calls) location = readInt m location ∧
    ∀ a, (∀ j, j < 4 → a % ADDR ≠ (location + 4 + j) % ADDR) →
      load8 (runSetCalls m location calls) a = load8 m a := by
  have hframe := load8_runSetCalls_frame location
  have hword : read32 (runSetCalls m location calls) location = read32 m location := by
    unfold read32
    rw [hframe location (by intro j hj; simp only [ADDR]; omega) calls m,
      hframe (location + 1) (by intro j hj; simp only [ADDR]; omega) calls m,
      hframe (location + 2) (by intro j hj; simp only [ADDR]; omega) calls m,
      hframe (location + 3) (by intro j hj; simp only [ADDR]; omega) calls m]
  refine ⟨hword, ?_, fun a h => hframe a h calls m⟩
  unfold readInt
  rw [hword]

/-- C4: decode is payload XOR key for both kinds. The bit pattern of
`GetObscuredIntValue(location)` is the bitwise XOR of the word at `location + 4` with the
word at `location`, bit by bit, and the bits of `GetObscuredFloatValue(location)` are the
bits of `GetObscuredIntValue(location)`. -/
theorem C4_decode_is_payload_xor_key (m : Mem) (location : Nat) :
    toBits (GetObscuredIntValue m location)
      = read32 m ((location + 4) % ADDR) ^^^ read32 m location ∧
    (∀ i, (toBits (GetObscuredIntValue m location)).testBit i
      = Bool.xor ((read32 m ((location + 4) % ADDR)).testBit i)
          ((read32 m location).testBit i)) ∧
    (GetObscuredFloatValue m location).bits = toBits (GetObscuredIntValue m location) := by
  have h : toBits (GetObscuredIntValue m location)
      = read32 m ((location + 4) % ADDR) ^^^ read32 m location := by
    unfold GetObscuredIntValue readInt
    simp only []
    rw [toBits_xorInt, toBits_toInt32, toBits_toInt32,
      Nat.mod_eq_of_lt (read32_lt _ _), Nat.mod_eq_of_lt (read32_lt _ _)]
  refine ⟨h, ?_, ?_⟩
  · intro i
    rw [h, Nat.testBit_xor]
  · unfold GetObscuredFloatValue intfloat.f intfloat.setI GetObscuredIntValue
    simp only []
    exact Nat.mod_eq_of_lt (toBits_lt _)


theorem C1_int_codec_round_trip_witness :
    (readInt (memOfBytes 0 [120, 86, 52, 18, 0, 0, 0, 0]) 0 = 305419896 ∧
      (-2147483648 : Int) ≤ -5 ∧ (-5 : Int) < 2147483648) ∧
    (GetObscuredIntValue
        (SetObscuredIntValue (memOfBytes 0 [120, 86, 52, 18, 0, 0, 0, 0]) 0 (-5)) 0 = -5 ∧
      readInt (SetObscuredIntValue (memOfBytes 0 [120, 86, 52, 18, 0, 0, 0, 0]) 0 (-5))
        ((0 + 4) % ADDR) = xorInt (-5) 305419896) :=
  ⟨⟨by decide, by decide, by decide⟩,
    C1_int_codec_round_trip (memOfBytes 0 [120, 86, 52, 18, 0, 0, 0, 0]) 0 305419896 (-5)
      (by decide) (by decide) (by decide)⟩

theorem C2_float_codec_round_trip_witness :
    (readInt (memOfBytes 0 [120, 86, 52, 18, 0, 0, 0, 0]) 0 = 305419896 ∧
      2143289345 < 4294967296) ∧
    ((GetObscuredFloatValue
        (SetObscuredFloatValue (memOfBytes 0 [120, 86, 52, 18, 0, 0, 0, 0]) 0 ⟨2143289345⟩)
        0).bits = 2143289345 ∧
      read32 (SetObscuredFloatValue (memOfBytes 0 [120, 86, 52, 18, 0, 0, 0, 0]) 0
        ⟨2143289345⟩) ((0 + 4) % ADDR) = 2143289345 ^^^ toBits 305419896) :=
  ⟨⟨by decide, by decide⟩,
    C2_float_codec_round_trip (memOfBytes 0 [120, 86, 52, 18, 0, 0, 0, 0]) 0 305419896
      2143289345 (by decide) (by decide)⟩


/-- C5 (evaluation of the code): `getRealOffset` adds `offset` to the address of the loader
function and never to a slide the loader reports. With the function at 4301340672 and a
reported slide of 16384, `getRealOffset(4096)` is 4301344768 and not 4096 + 16384, and a
different reported slide leaves the result unchanged. -/
theorem C5_getRealOffset_adds_function_address :
    getRealOffset ⟨4301340672, fun _ => 16384⟩ 4096 = 4301344768 ∧
    getRealOffset ⟨4301340672, fun _ => 16384⟩ 4096 ≠ (4096 + 16384) % ADDR ∧
    (∀ (a offset : Nat) (s1 s2 : Nat → Int),
      getRealOffset ⟨a, s1⟩ offset = getRealOffset ⟨a, s2⟩ offset) := by
  refine ⟨by decide, by decide, ?_⟩
  intro a offset s1 s2
  rfl

/-- C6 (counterexample): with the length field at 0x40000000 the product `length * 2`
does not fit an `int`; the byte count handed to the host is 2^64 - 2^31 and the decoded
text has 2^63 - 2^30 code units, not 0x40000000. -/
theorem C6_counterexample_length_overflow :
    monoString.getLength hugeLengthMem 0 = 1073741824 ∧
    monoString.byteCount hugeLengthMem 0 = 18446744071562067968 ∧
    (monoString.toNSString hugeLengthMem 0).length = 9223372035781033984 ∧
    ¬ (∀ (m : Mem) (self n : Nat), monoString.getLength m self = (n : Int) →
        monoString.toNSString m self
          = (List.range n).map (codeUnitAt m (monoString.getChars self))) := by
  have hlen : monoString.getLength hugeLengthMem 0 = 1073741824 := by decide
  have hbc : monoString.byteCount hugeLengthMem 0 = 18446744071562067968 := by decide
  have hl : (monoString.toNSString hugeLengthMem 0).length = 9223372035781033984 := by
    unfold monoString.toNSString
    rw [length_initWithBytesUTF16LE, hbc]
  refine ⟨hlen, hbc, hl, ?_⟩
  intro h
  have h2 := congrArg List.length (h hugeLengthMem 0 1073741824 hlen)
  rw [hl, List.length_map, List.length_range] at h2
  omega

/-- C6 (amended): for every string header whose length field is `n` with
`0 ≤ n < 2^30`, `toNSString` hands the host exactly `2 * n` bytes and decodes exactly the
`n` little-endian code units stored inline after the header, zero code units included; the
result depends on no byte beyond those `2 * n`. -/
theorem C6_toNSString_governed_by_length (m : Mem) (self n : Nat)
    (hn : monoString.getLength m self = (n : Int)) (hbound : n < 1073741824) :
    monoString.byteCount m self = 2 * n ∧
    monoString.toNSString m self
      = (List.range n).map (codeUnitAt m (monoString.getChars self)) ∧
    (monoString.toNSString m self).length = n ∧
    (∀ m2 : Mem, monoString.getLength m2 self = (n : Int) →
      (∀ j, j < 2 * n → load8 m2 (monoString.getChars self + j)
        = load8 m (monoString.getChars self + j)) →
      monoString.toNSString m2 self = monoString.toNSString m self) := by
  have hbc := byteCount_of_length m self n hn hbound
  have hdec : ∀ m2 : Mem, monoString.getLength m2 self = (n : Int) →
      monoString.toNSString m2 self
        = (List.range n).map (codeUnitAt m2 (monoString.getChars self)) := by
    intro m2 h2
    unfold monoString.toNSString initWithBytesUTF16LE
    rw [byteCount_of_length m2 self n h2 hbound, Nat.mul_div_cancel_left n (by omega)]
  refine ⟨hbc, hdec m hn, ?_, ?_⟩
  · rw [hdec m hn, List.length_map, List.length_range]
  · intro m2 h2 hbytes
    rw [hdec m hn, hdec m2 h2]
    apply List.map_congr_left
    intro i hi
    have hi2 : i < n := List.mem_range.mp hi
    unfold codeUnitAt
    rw [hbytes (2 * i) (by omega)]
    have e : monoString.getChars self + 2 * i + 1 = monoString.getChars self + (2 * i + 1) := by
      omega
    rw [e, hbytes (2 * i + 1) (by omega)]

theorem C6_toNSString_governed_by_length_witness :
    (monoString.getLength zeroUnitMem 0 = ((4 : Nat) : Int) ∧ 4 < 1073741824) ∧
    monoString.toNSString zeroUnitMem 0 = [97, 0, 98, 99] ∧
    (monoString.toNSString zeroUnitMem 0).length = 4 ∧
    (monoString.getLength catMem 0 = ((3 : Nat) : Int) ∧ 3 < 1073741824) ∧
    monoString.toNSString catMem 0 = [99, 97, 116] ∧
    (monoString.toNSString catMem 0).length = 3 :=
  ⟨⟨by decide, by decide⟩,
    (C6_toNSString_governed_by_length zeroUnitMem 0 4 (by decide) (by decide)).2.1.trans
      (by decide),
    (C6_toNSString_governed_by_length zeroUnitMem 0 4 (by decide) (by decide)).2.2.1,
    ⟨by decide, by decide⟩,
    (C6_toNSString_governed_by_length catMem 0 3 (by decide) (by decide)).2.1.trans
      (by decide),
    (C6_toNSString_governed_by_length catMem 0 3 (by decide) (by decide)).2.2.1⟩

/-- C7 (counterexample): for the header with length 4 and code units `a`, 0, `b`, `c`,
`toNSString` decodes four code units and the host `UTF8String` buffer holds all of them,
but the text of the `char *` of `toCString` and the `std::string` of `toCPPString` is the
single byte `a`: it stops at the zero code unit. -/
theorem C7_counterexample_zero_code_unit :
    monoString.toNSString zeroUnitMem 0 = [97, 0, 98, 99] ∧
    monoString.toCString zeroUnitMem 0 = some [97, 0, 98, 99, 0] ∧
    (monoString.toCString zeroUnitMem 0).map cText = some [97] ∧
    monoString.toCPPString zeroUnitMem 0 = some [97] ∧
    monoString.toCPPString zeroUnitMem 0 ≠ utf8Bytes (monoString.toNSString zeroUnitMem 0) := by
  refine ⟨by decide, by decide, by decide, by decide, by decide⟩

/-- C7 (amended): whenever the host can narrow the decoded text (no unpaired surrogate),
the text returned by `toCString` / `toCPPString` is the UTF-8 form of the code units that
`toNSString` decodes up to, and not including, the first zero code unit; it covers all the
decoded code units exactly when none of them is zero. -/
theorem C7_narrowing_stops_at_zero_code_unit (m : Mem) (self : Nat) (bs : List Nat)
    (h : utf8Bytes (monoString.toNSString m self) = some bs) :
    monoString.toCPPString m self = utf8Bytes (cText (monoString.toNSString m self)) ∧
    (monoString.toCString m self).map cText = monoString.toCPPString m self ∧
    monoString.toCPPString m self = some (cText bs) ∧
    ((∀ u ∈ monoString.toNSString m self, u ≠ 0) → monoString.toCPPString m self = some bs) ∧
    ((∃ u ∈ monoString.toNSString m self, u = 0) → monoString.toCPPString m self ≠ some bs) := by
  have hcut := utf8Bytes_cText _ (monoString.toNSString m self) bs (Nat.le_refl _) h
  have hcpp : monoString.toCPPString m self = some (cText bs) := by
    unfold monoString.toCPPString monoString.toCString UTF8String
    simp only []
    rw [h]
    simp only [Option.map]
    rw [cText_terminated]
  refine ⟨by rw [hcpp, hcut], rfl, hcpp, ?_, ?_⟩
  · intro hnz
    have e : cText (monoString.toNSString m self) = monoString.toNSString m self := by
      unfold cText
      rw [List.takeWhile_eq_self_iff]
      intro u hu
      simpa using hnz u hu
    rw [hcpp, ← hcut, e, h]
  · rintro ⟨u, hu, hz⟩
    subst hz
    rw [hcpp]
    intro hEq
    have hEq2 : cText bs = bs := Option.some.inj hEq
    have hmem := utf8Bytes_zero_mem _ (monoString.toNSString m self) bs (Nat.le_refl _) h hu
    unfold cText at hEq2
    rw [List.takeWhile_eq_self_iff] at hEq2
    simpa using hEq2 0 hmem


theorem C7_narrowing_stops_at_zero_code_unit_witness :
    utf8Bytes (monoString.toNSString catMem 0) = some [99, 97, 116] ∧
    monoString.toCPPString catMem 0 = some [99, 97, 116] ∧
    utf8Bytes (monoString.toNSString zeroUnitMem 0) = some [97, 0, 98, 99] ∧
    monoString.toCPPString zeroUnitMem 0 = some (cText [97, 0, 98, 99]) :=
  ⟨by decide,
    (C7_narrowing_stops_at_zero_code_unit catMem 0 [99, 97, 116] (by decide)).2.2.2.1
      (by decide),
    by decide,
    (C7_narrowing_stops_at_zero_code_unit zeroUnitMem 0 [97, 0, 98, 99] (by decide)).2.2.1⟩

/-- C8: array view access. `getLength()` returns the `max_length` field and `getPointer()`
the address of the inline storage `vector`, the member that follows the fixed prefix
(`klass`, `monitor`, `bounds`, 32-bit `max_length`) at the next pointer-aligned offset. For
every sequence of `n` 32-bit integers written at `getPointer()` of a buffer whose length
field is `n`, `getLength()` is still `n` and reading `getLength()` elements through
`getPointer()` gives back the sequence in order. -/
theorem C8_array_view_access (m : Mem) (self : Nat) (xs : List Int)
    (hlen : monoArray.getLength m self = (xs.length : Int))
    (hstore : self + 32 < ADDR)
    (hfit : self + 32 + 4 * xs.length ≤ ADDR)
    (hrange : ∀ x ∈ xs, -2147483648 ≤ x ∧ x < 2147483648) :
    monoArray.getLength m self = readInt m (self + 24) ∧
    monoArray.getPointer self = self + 32 ∧
    monoArray.vector_off = alignUp monoArray.headEnd 8 ∧
    monoArray.getLength (writeInts m (monoArray.getPointer self) xs) self
      = (xs.length : Int) ∧
    readInts (writeInts m (monoArray.getPointer self) xs) (monoArray.getPointer self)
      (monoArray.getLength (writeInts m (monoArray.getPointer self) xs) self).toNat = xs := by
  have hp : monoArray.getPointer self = self + 32 := by
    unfold monoArray.getPointer monoArray.vector_off
    apply Nat.mod_eq_of_lt
    simp only [ADDR] at *
    omega
  have hl : monoArray.getLength (writeInts m (monoArray.getPointer self) xs) self
      = (xs.length : Int) := by
    rw [← hlen, hp]
    unfold monoArray.getLength monoArray.max_length_off readInt
    rw [read32_writeInts_before xs m (self + 32) (self + 24) (by omega) (by omega)]
  refine ⟨rfl, hp, by decide, hl, ?_⟩
  rw [hl, Int.toNat_ofNat, hp]
  exact readInts_writeInts xs m (self + 32) (by omega) hrange

theorem C8_array_view_access_witness :
    (monoArray.getLength fiveArrayMem 0 = (([10, -20, 30, -40, 50] : List Int).length : Int) ∧
      0 + 32 < ADDR ∧
      0 + 32 + 4 * ([10, -20, 30, -40, 50] : List Int).length ≤ ADDR) ∧
    monoArray.getLength
      (writeInts fiveArrayMem (monoArray.getPointer 0) [10, -20, 30, -40, 50]) 0 = 5 ∧
    readInts (writeInts fiveArrayMem (monoArray.getPointer 0) [10, -20, 30, -40, 50])
      (monoArray.getPointer 0)
      (monoArray.getLength
        (writeInts fiveArrayMem (monoArray.getPointer 0) [10, -20, 30, -40, 50]) 0).toNat
      = [10, -20, 30, -40, 50] :=
  ⟨⟨by decide, by decide, by decide⟩,
    (C8_array_view_access fiveArrayMem 0 [10, -20, 30, -40, 50] (by decide) (by decide)
      (by decide) (by decide)).2.2.2.1,
    (C8_array_view_access fiveArrayMem 0 [10, -20, 30, -40, 50] (by decide) (by decide)
      (by decide) (by decide)).2.2.2.2⟩


/-- C9: list view keeps logical size and backing capacity apart. `getSize()` returns the
`size` field, `getVersion()` the `version` field and `getItems()` exactly the backing
array's `getPointer()`. Storing any other capacity in the backing array's length field
changes none of the three, and storing any other size in the `size` field leaves
`getItems()` where it was: the pointer is never clamped to the size. -/
theorem C9_list_size_apart_from_capacity (m : Mem) (self : Nat) (c2 s2 : Int)
    (hsep : ∀ i j, i < 4 → j < 32 →
      (monoList.items m self + 24 + i) % ADDR ≠ (self + j) % ADDR) :
    monoList.getSize m self = readInt m (self + 24) ∧
    monoList.getVersion m self = readInt m (self + 28) ∧
    monoList.getItems m self = monoArray.getPointer (monoList.items m self) ∧
    monoArray.getLength (writeInt m (monoList.items m self + 24) c2) (monoList.items m self)
      = toInt32 (toBits c2) ∧
    monoList.getSize (writeInt m (monoList.items m self + 24) c2) self
      = monoList.getSize m self ∧
    monoList.getVersion (writeInt m (monoList.items m self + 24) c2) self
      = monoList.getVersion m self ∧
    monoList.getItems (writeInt m (monoList.items m self + 24) c2) self
      = monoList.getItems m self ∧
    monoList.getItems (writeInt m (self + 24) s2) self = monoList.getItems m self := by
  have hrd : ∀ k, k + 4 ≤ 32 →
      read32 (writeInt m (monoList.items m self + 24) c2) (self + k) = read32 m (self + k) := by
    intro k hk
    unfold writeInt
    apply read32_write32_disjoint
    intro i j hi hj
    have h := hsep j (k + i) hj (by omega)
    simp only [ADDR] at *
    omega
  have hitems : monoList.items (writeInt m (monoList.items m self + 24) c2) self
      = monoList.items m self := by
    have e : self + 16 + 4 = self + 20 := by omega
    show read32 (writeInt m (monoList.items m self + 24) c2) (self + 16)
        + W32 * read32 (writeInt m (monoList.items m self + 24) c2) (self + 16 + 4)
      = read32 m (self + 16) + W32 * read32 m (self + 16 + 4)
    rw [e, hrd 16 (by omega), hrd 20 (by omega)]
  have hitems2 : monoList.items (writeInt m (self + 24) s2) self = monoList.items m self := by
    unfold monoList.items read64 writeInt
    rw [read32_write32_disjoint, read32_write32_disjoint]
    all_goals (intro i j hi hj; simp only [ADDR]; omega)
  refine ⟨rfl, rfl, rfl, ?_, ?_, ?_, ?_, ?_⟩
  · unfold monoArray.getLength monoArray.max_length_off readInt writeInt
    rw [read32_write32_same, Nat.mod_eq_of_lt (toBits_lt c2)]
  · unfold monoList.getSize readInt
    rw [hrd 24 (by omega)]
  · unfold monoList.getVersion readInt
    rw [hrd 28 (by omega)]
  · unfold monoList.getItems
    rw [hitems]
  · unfold monoList.getItems
    rw [hitems2]

theorem C9_list_size_apart_from_capacity_witness :
    (∀ i j, i < 4 → j < 32 →
      (monoList.items listMem 0 + 24 + i) % ADDR ≠ (0 + j) % ADDR) ∧
    monoArray.getLength listMem (monoList.items listMem 0) = 10 ∧
    monoList.getSize listMem 0 = 4 ∧
    monoList.getVersion listMem 0 = 7 ∧
    readInts listMem (monoList.getItems listMem 0) 10 = [1, 2, 3, 4, 5, 6, 7, 8, 9, 10] ∧
    monoList.getSize (writeInt listMem (monoList.items listMem 0 + 24) 1000) 0
      = monoList.getSize listMem 0 :=
  have hitems : monoList.items listMem 0 = 64 := by decide
  have hsep : ∀ i j, i < 4 → j < 32 →
      (monoList.items listMem 0 + 24 + i) % ADDR ≠ (0 + j) % ADDR := by
    intro i j hi hj
    rw [hitems]
    simp only [ADDR]
    omega
  ⟨hsep, by decide, by decide, by decide, by decide,
    (C9_list_size_apart_from_capacity listMem 0 1000 0 hsep).2.2.2.2.1⟩

theorem read32_add_mod (m : Mem) (a k : Nat) :
    read32 m (a % ADDR + k) = read32 m (a + k) := by
  unfold read32 load8
  have e0 : (a % ADDR + k) % ADDR = (a + k) % ADDR := by simp only [ADDR]; omega
  have e1 : (a % ADDR + k + 1) % ADDR = (a + k + 1) % ADDR := by simp only [ADDR]; omega
  have e2 : (a % ADDR + k + 2) % ADDR = (a + k + 2) % ADDR := by simp only [ADDR]; omega
  have e3 : (a % ADDR + k + 3) % ADDR = (a + k + 3) % ADDR := by simp only [ADDR]; omega
  rw [e0, e1, e2, e3]

/-- C10: dictionary view reports capacity and live count separately. `getNumKeys()` is the
length field (offset 24) of the array the `keys` member (offset 32) points at, and
`getNumValues()` the length field of the array the `values` member (offset 40) points at;
storing any other value in the dictionary's `size` field changes neither. `getSize()` is
the `size` field (offset 56); storing any other length in the keys or the values array does
not change it, and it can differ from `getNumKeys()`. `getKeys()` / `getValues()` are the
addresses of the inline storage of the keys / values array, 32 bytes past the array
header's address, so element `i` read through them is the element `i` stored inline in that
array; a store to `size` does not move them. -/
theorem C10_dictionary_capacity_apart_from_size (m : Mem) (self : Nat) (c2 s2 : Int)
    (hk : ∀ i j, i < 4 → j < 4 →
      (monoDictionary.keys m self + 24 + i) % ADDR ≠ (self + 56 + j) % ADDR)
    (hv : ∀ i j, i < 4 → j < 4 →
      (monoDictionary.values m self + 24 + i) % ADDR ≠ (self + 56 + j) % ADDR) :
    monoDictionary.getNumKeys m self = readInt m (monoDictionary.keys m self + 24) ∧
    monoDictionary.getNumValues m self = readInt m (monoDictionary.values m self + 24) ∧
    monoDictionary.getSize m self = readInt m (self + 56) ∧
    monoDictionary.getKeys m self = monoArray.getPointer (monoDictionary.keys m self) ∧
    monoDictionary.getValues m self = monoArray.getPointer (monoDictionary.values m self) ∧
    monoDictionary.getNumKeys (writeInt m (self + 56) s2) self
      = monoDictionary.getNumKeys m self ∧
    monoDictionary.getNumValues (writeInt m (self + 56) s2) self
      = monoDictionary.getNumValues m self ∧
    monoDictionary.getSize (writeInt m (monoDictionary.keys m self + 24) c2) self
      = monoDictionary.getSize m self ∧
    monoDictionary.getSize (writeInt m (monoDictionary.values m self + 24) c2) self
      = monoDictionary.getSize m self ∧
    (∃ (m0 : Mem) (self0 : Nat),
      monoDictionary.getSize m0 self0 ≠ monoDictionary.getNumKeys m0 self0) ∧
    monoDictionary.getNumKeys m self = readInt m (read64 m (self + 32) + 24) ∧
    monoDictionary.getNumValues m self = readInt m (read64 m (self + 40) + 24) ∧
    monoDictionary.getKeys m self = (read64 m (self + 32) + 32) % ADDR ∧
    monoDictionary.getValues m self = (read64 m (self + 40) + 32) % ADDR ∧
    (∀ i, intAt m (monoDictionary.getKeys m self) i
      = readInt m (read64 m (self + 32) + 32 + 4 * i)) ∧
    (∀ i, intAt m (monoDictionary.getValues m self) i
      = readInt m (read64 m (self + 40) + 32 + 4 * i)) ∧
    monoDictionary.getKeys (writeInt m (self + 56) s2) self = monoDictionary.getKeys m self ∧
    monoDictionary.getValues (writeInt m (self + 56) s2) self
      = monoDictionary.getValues m self ∧
    (monoDictionary.getKeys dictMem 0 = 96 ∧ monoDictionary.getValues dictMem 0 = 160 ∧
      readInts dictMem (monoDictionary.getKeys dictMem 0) 8
        = [11, 12, 13, 14, 15, 16, 17, 18] ∧
      readInts dictMem (monoDictionary.getValues dictMem 0) 8
        = [21, 22, 23, 24, 25, 26, 27, 28]) := by
  have hkeys : monoDictionary.keys (writeInt m (self + 56) s2) self
      = monoDictionary.keys m self := by
    unfold monoDictionary.keys read64 writeInt
    rw [read32_write32_disjoint, read32_write32_disjoint]
    all_goals (intro i j hi hj; simp only [ADDR]; omega)
  have hvalues : monoDictionary.values (writeInt m (self + 56) s2) self
      = monoDictionary.values m self := by
    unfold monoDictionary.values read64 writeInt
    rw [read32_write32_disjoint, read32_write32_disjoint]
    all_goals (intro i j hi hj; simp only [ADDR]; omega)
  refine ⟨rfl, rfl, rfl, rfl, rfl, ?_, ?_, ?_, ?_, ⟨dictMem, 0, by decide⟩,
    rfl, rfl, rfl, rfl, ?_, ?_, ?_, ?_, by decide, by decide, by decide, by decide⟩
  · unfold monoDictionary.getNumKeys
    rw [hkeys]
    unfold monoArray.getLength monoArray.max_length_off readInt writeInt
    rw [read32_write32_disjoint]
    intro i j hi hj
    exact hk i j hi hj
  · unfold monoDictionary.getNumValues
    rw [hvalues]
    unfold monoArray.getLength monoArray.max_length_off readInt writeInt
    rw [read32_write32_disjoint]
    intro i j hi hj
    exact hv i j hi hj
  · unfold monoDictionary.getSize readInt writeInt
    rw [read32_write32_disjoint]
    intro i j hi hj
    exact (hk j i hj hi).symm
  · unfold monoDictionary.getSize readInt writeInt
    rw [read32_write32_disjoint]
    intro i j hi hj
    exact (hv j i hj hi).symm
  · intro i
    show readInt m ((read64 m (self + 32) + 32) % ADDR + 4 * i) = _
    unfold readInt
    rw [read32_add_mod]
  · intro i
    show readInt m ((read64 m (self + 40) + 32) % ADDR + 4 * i) = _
    unfold readInt
    rw [read32_add_mod]
  · unfold monoDictionary.getKeys
    rw [hkeys]
  · unfold monoDictionary.getValues
    rw [hvalues]

theorem C10_dictionary_capacity_apart_from_size_witness :
    ((∀ i j, i < 4 → j < 4 →
        (monoDictionary.keys dictMem 0 + 24 + i) % ADDR ≠ (0 + 56 + j) % ADDR) ∧
      (∀ i j, i < 4 → j < 4 →
        (monoDictionary.values dictMem 0 + 24 + i) % ADDR ≠ (0 + 56 + j) % ADDR)) ∧
    monoDictionary.getNumKeys dictMem 0 = 8 ∧
    monoDictionary.getNumValues dictMem 0 = 8 ∧
    monoDictionary.getSize dictMem 0 = 2 ∧
    monoDictionary.getNumKeys (writeInt dictMem (0 + 56) 5) 0
      = monoDictionary.getNumKeys dictMem 0 ∧
    monoDictionary.getSize (writeInt dictMem (monoDictionary.keys dictMem 0 + 24) 100) 0
      = monoDictionary.getSize dictMem 0 ∧
    monoDictionary.getKeys dictMem 0 = 96 ∧
    monoDictionary.getValues dictMem 0 = 160 ∧
    readInts dictMem (monoDictionary.getKeys dictMem 0) 8
      = [11, 12, 13, 14, 15, 16, 17, 18] ∧
    readInts dictMem (monoDictionary.getValues dictMem 0) 8
      = [21, 22, 23, 24, 25, 26, 27, 28] ∧
    monoDictionary.getNumKeys (writeInt dictMem 88 5) 0 = 5 ∧
    monoDictionary.getNumValues (writeInt dictMem 88 5) 0 = 8 ∧
    monoDictionary.getNumKeys (writeInt dictMem 152 6) 0 = 8 ∧
    monoDictionary.getNumValues (writeInt dictMem 152 6) 0 = 6 ∧
    monoDictionary.getSize (writeInt dictMem 88 5) 0 = 2 :=
  have hkeys : monoDictionary.keys dictMem 0 = 64 := by decide
  have hvalues : monoDictionary.values dictMem 0 = 128 := by decide
  have hk : ∀ i j, i < 4 → j < 4 →
      (monoDictionary.keys dictMem 0 + 24 + i) % ADDR ≠ (0 + 56 + j) % ADDR := by
    intro i j hi hj
    rw [hkeys]
    simp only [ADDR]
    omega
  have hv : ∀ i j, i < 4 → j < 4 →
      (monoDictionary.values dictMem 0 + 24 + i) % ADDR ≠ (0 + 56 + j) % ADDR := by
    intro i j hi hj
    rw [hvalues]
    simp only [ADDR]
    omega
  ⟨⟨hk, hv⟩, by decide, by decide, by decide,
    (C10_dictionary_capacity_apart_from_size dictMem 0 100 5 hk hv).2.2.2.2.2.1,
    (C10_dictionary_capacity_apart_from_size dictMem 0 100 5 hk hv).2.2.2.2.2.2.2.1,
    by decide, by decide, by decide, by decide, by decide, by decide, by decide, by decide,
    by decide⟩

end Unity
